import Mathlib

/-!
# Verification of the Repacss checkpoint demo step engines

Shallow embedding of the two demo programs:

* `src/demo/mpi/hello_mpi.c` — the Coordinator-Worker Step Engine (4.1):
  N MPI ranks run a for-loop over a per-process `static int counter`;
  each iteration broadcasts the step, computes `my_value = rank * (step+1)`,
  gathers all values at rank 0, prints, sleeps, then increments `counter`.

* `src/demo/omp_dmtcp_demo.c` — the Thread-Barrier Step Engine (4.2):
  a for-loop `for (step = 0; step < steps; ++step, ++global_counter)`
  whose body runs an OpenMP parallel region; one elected thread appends a
  progress record `STEP=<n> global_counter=<c>` to a state file, opened in
  mode `"w"` when `step == 0` and `"a"` otherwise.

Machine integers are modelled as `Nat` (loop counters, ranks, steps — all
non-negative in every reachable state) or `Int` (raw `atoi` results, which
can be negative); the `(uint64_t)ms` cast in `busy_work_ms` is modelled
explicitly modulo `2 ^ 64`.
-/

/-! ## Coordinator-Worker Step Engine (`src/demo/mpi/hello_mpi.c`) -/

/-- Line 40: `my_value = rank * (step + 1);` — every rank (rank 0 included)
computes its per-step report value. -/
def my_value (rank step : Nat) : Nat :=
  rank * (step + 1)

/-- Lines 43–45: after `MPI_Gather(&my_value, 1, MPI_INT, gather_buf, ...)`
the root's buffer holds, in rank order, each rank's `my_value` for the
current step. -/
def gather_buf (size step : Nat) : List Nat :=
  (List.range size).map (fun rank => my_value rank step)

/-- Lines 21–23: `max_steps = 120; if (env) { max_steps = atoi(env);
if (max_steps < 1) max_steps = 1; }`.  The argument is the `atoi` result of
the `MAX_STEPS` environment variable when it is set. -/
def parseMaxSteps (env : Option Int) : Int :=
  match env with
  | none => 120
  | some v => if v < 1 then 1 else v

/-- Lines 24–26: `sleep_ms = 1000; if (env2) { sleep_ms = atoi(env2);
if (sleep_ms < 0) sleep_ms = 0; }` for the `SLEEP_MS` environment variable. -/
def parseSleepMs (env : Option Int) : Int :=
  match env with
  | none => 1000
  | some v => if v < 0 then 0 else v

/-- What rank 0 produces in one iteration of the step loop: the announced
step index (line 35, `step = counter` at the root) and the gathered buffer
it prints at line 49. -/
structure StepLog where
  step : Nat
  gathered : List Nat
  deriving DecidableEq

/-- Lines 33–61, viewed from the coordinator: the loop
`for (; counter < max_steps; counter++)` starting from counter value `c`.
Returns the list of per-iteration records in order, together with the final
value of `counter` (the value printed by the `[finish]` line). -/
def mpiMainLoop (size c max_steps : Nat) : List StepLog × Nat :=
  if _h : c < max_steps then
    let r := mpiMainLoop size (c + 1) max_steps
    (⟨c, gather_buf size c⟩ :: r.1, r.2)
  else
    ([], c)
termination_by max_steps - c
decreasing_by omega

/-- Line 63: `printf("[finish] completed steps=%d\n", counter)` — the value
the final summary reports is the final counter. -/
def mpi_finish_line (size c max_steps : Nat) : Nat :=
  (mpiMainLoop size c max_steps).2

/-- The trajectory of the coordinator's `counter` variable: its value at
the start of each executed iteration (line 35 equates it with the emitted
step index) followed by its value after the loop exits. -/
def counterTraj (size c max_steps : Nat) : List Nat :=
  (mpiMainLoop size c max_steps).1.map StepLog.step ++ [(mpiMainLoop size c max_steps).2]

/-- The six phases of one loop iteration in source order: the numbered
comments `1) … 5)` of lines 34–60 and the `counter++` of the for-header,
which executes after the body. -/
inductive MpiPhase where
  | bcast
  | compute
  | gatherPhase
  | rootLog
  | pace
  | advance
  deriving DecidableEq

/-- Source order of the phases of one iteration of the loop at lines 33–61:
broadcast, per-rank compute, gather, root print, `usleep`, then the
`counter++` increment from the for-statement header. -/
def stepPhases : List MpiPhase :=
  [MpiPhase.bcast, MpiPhase.compute, MpiPhase.gatherPhase,
   MpiPhase.rootLog, MpiPhase.pace, MpiPhase.advance]

/-- Multi-process state: each MPI rank holds its own copy of the
`static int counter` (line 12) in its private address space; the system
state maps each rank to its counter value. -/
def counterIncrement (st : Nat → Nat) (r : Nat) : Nat → Nat :=
  fun q => if q = r then st q + 1 else st q

/-- The whole step loop as executed by rank `r`: every iteration ends with
`counter++`, which mutates only rank `r`'s own copy of the counter. -/
def rankLoop (r max_steps : Nat) (st : Nat → Nat) : Nat → Nat :=
  if _h : st r < max_steps then
    rankLoop r max_steps (counterIncrement st r)
  else
    st
termination_by max_steps - st r
decreasing_by simp [counterIncrement]; omega

/-! ## Thread-Barrier Step Engine (`src/demo/omp_dmtcp_demo.c`) -/

/-- Line 16 of `busy_work_ms`:
`const uint64_t target = (uint64_t)ms * 1000ULL;` — the signed `int`
argument is converted to `uint64_t` (reduction modulo `2 ^ 64`), then
multiplied by 1000 in `uint64_t` arithmetic. -/
def busy_work_target (ms : Int) : Nat :=
  ((ms % (2 ^ 64 : Int)).toNat * 1000) % 2 ^ 64

/-- Lines 19–28: the loop polls `CLOCK_MONOTONIC` and exits as soon as the
elapsed microseconds `us` reach `target`.  `elapsed n` is the value of `us`
computed at the `n`-th poll; the loop terminates iff some poll reaches the
target. -/
def BusyWorkTerminates (elapsed : Nat → Nat) (ms : Int) : Prop :=
  ∃ n, busy_work_target ms ≤ elapsed n

/-- One command-line token as classified by
`getopt(argc, argv, "s:w:F:h")` at line 46; for `-s` and `-w` we carry the
`atoi(optarg)` result, for `-F` the path. `bad` is getopt's `?` for an
unrecognized flag (or a missing argument). -/
inductive OptFlag where
  | s : Int → OptFlag
  | w : Int → OptFlag
  | F : String → OptFlag
  | h : OptFlag
  | bad : OptFlag
  deriving DecidableEq

/-- Outcome of option parsing: either `main` proceeds with
`(steps, work_ms, state_file)`, or it printed usage and returned the given
exit code (line 51: 0 for `-h`, 1 otherwise). -/
inductive OptResult where
  | ok : Int → Int → Option String → OptResult
  | exit : Nat → OptResult
  deriving DecidableEq

/-- Lines 46–53: the `getopt` loop.  `case 's'`/`case 'w'` store the `atoi`
result with no check or clamp; `case 'F'` stores the path; `case 'h'` and
the default case print usage and return `opt=='h' ? 0 : 1`. -/
def getoptLoop : List OptFlag → Int → Int → Option String → OptResult
  | [], steps, work_ms, state_file => OptResult.ok steps work_ms state_file
  | OptFlag.s v :: rest, _, work_ms, state_file => getoptLoop rest v work_ms state_file
  | OptFlag.w v :: rest, steps, _, state_file => getoptLoop rest steps v state_file
  | OptFlag.F p :: rest, steps, work_ms, _ => getoptLoop rest steps work_ms (some p)
  | OptFlag.h :: _, _, _, _ => OptResult.exit 0
  | OptFlag.bad :: _, _, _, _ => OptResult.exit 1

/-- Lines 41–43: the defaults `steps = 60`, `work_ms = 25`,
`state_file = NULL` that the getopt loop starts from. -/
def ompParse (opts : List OptFlag) : OptResult :=
  getoptLoop opts 60 25 none

/-- Line 98: `usleep(2000 * 1000); // 2000 ms` — the pacing delay of the
elected thread, a literal in the source, not touched by any option. -/
def omp_pacing_us : Nat :=
  2000 * 1000

/-- One line of the state file, lines 91–92:
`fprintf(f, "%s STEP=%d global_counter=%d threads=%d\n", ts, step,
global_counter, nth)`; we keep the two numeric fields the claims are
about. -/
structure LogEntry where
  step : Nat
  counter : Nat
  deriving DecidableEq

/-- Line 85: `fopen(state_file, (step==0) ? "w" : "a")` — the mode string
chosen for the state file at a given step. -/
def fopen_mode (step : Nat) : String :=
  if step == 0 then "w" else "a"

/-- Lines 84–94, effect of the elected thread's block on the state-file
contents: when the file opens (`ok`), mode `"w"` (step 0) truncates to just
the new entry and mode `"a"` appends it; when `fopen` fails, or no state
file was given, the log is untouched. -/
def writeState (log : List LogEntry) (step gc : Nat) (ok : Bool) : List LogEntry :=
  if ok then
    if step == 0 then [⟨step, gc⟩] else log ++ [⟨step, gc⟩]
  else
    log

/-- Lines 67–101: the loop
`for (int step = 0; step < steps; ++step, ++global_counter)` started at
loop index `step` with counter value `gc` and state-file contents `log`.
`ok step` says whether the guarded `fopen` of iteration `step` succeeded
(false also covers `state_file == NULL`).  Returns the per-iteration
`(step, global_counter)` pairs in order, the final state-file contents, and
the final `global_counter` (printed by the `DONE` line, line 103). -/
def ompMainLoop (steps : Nat) (ok : Nat → Bool) (step gc : Nat) (log : List LogEntry) :
    List (Nat × Nat) × List LogEntry × Nat :=
  if _h : step < steps then
    let r := ompMainLoop steps ok (step + 1) (gc + 1) (writeState log step gc (ok step))
    ((step, gc) :: r.1, r.2)
  else
    ([], log, gc)
termination_by steps - step
decreasing_by omega

/-- The trajectory of `global_counter` in a fresh run of the thread
engine: its value at the start of each executed iteration (the second
component of the per-iteration pair) followed by its value after the loop
exits (the value the `DONE` line reports). -/
def ompCounterTraj (steps : Nat) (ok : Nat → Bool) : List Nat :=
  (ompMainLoop steps ok 0 0 []).1.map Prod.snd ++ [(ompMainLoop steps ok 0 0 []).2.2]

/-! ## Loop characterization lemmas -/

/-- The coordinator's loop from counter `c` emits exactly the steps
`c, c+1, …, max_steps-1` and leaves the counter at `max c max_steps`. -/
theorem mpiMainLoop_spec (size : Nat) :
    ∀ n c max_steps, max_steps - c = n →
      (mpiMainLoop size c max_steps).1.map StepLog.step = List.range' c (max_steps - c) ∧
      (mpiMainLoop size c max_steps).2 = max c max_steps := by
  intro n
  induction n with
  | zero =>
    intro c m h
    have hcm : ¬ c < m := by omega
    unfold mpiMainLoop
    simp [hcm]
    omega
  | succ k ih =>
    intro c m h
    have hcm : c < m := by omega
    obtain ⟨h1, h2⟩ := ih (c + 1) m (by omega)
    unfold mpiMainLoop
    simp [hcm, h1, h2]
    constructor
    · have hm : m - c = (m - (c + 1)) + 1 := by omega
      rw [hm, List.range'_succ]
    · omega

/-- The gathered buffers emitted by the coordinator's loop, in order. -/
theorem mpiMainLoop_gathered (size : Nat) :
    ∀ n c max_steps, max_steps - c = n →
      (mpiMainLoop size c max_steps).1.map StepLog.gathered =
        (List.range' c (max_steps - c)).map (gather_buf size) := by
  intro n
  induction n with
  | zero =>
    intro c m h
    have hcm : ¬ c < m := by omega
    unfold mpiMainLoop
    simp [hcm]
    omega
  | succ k ih =>
    intro c m h
    have hcm : c < m := by omega
    have h1 := ih (c + 1) m (by omega)
    unfold mpiMainLoop
    simp [hcm, h1]
    have hm : m - c = (m - (c + 1)) + 1 := by omega
    rw [hm, List.range'_succ]
    simp

/-- Pointwise form of the gather buffer: entry `r` is `r * (step + 1)`. -/
theorem gather_buf_get (size step r : Nat) (h : r < size) :
    (gather_buf size step).get? r = some (r * (step + 1)) := by
  simp [gather_buf, my_value, List.get?_eq_getElem?, h]

/-- Each rank's whole loop only ever mutates that rank's own counter. -/
theorem rankLoop_frame (r max_steps : Nat) :
    ∀ n st, max_steps - st r = n → ∀ q, q ≠ r → rankLoop r max_steps st q = st q := by
  intro n
  induction n with
  | zero =>
    intro st h q hq
    have hlt : ¬ st r < max_steps := by omega
    unfold rankLoop
    simp [hlt]
  | succ k ih =>
    intro st h q hq
    by_cases hlt : st r < max_steps
    · unfold rankLoop
      rw [dif_pos hlt]
      have hrec := ih (counterIncrement st r) (by simp [counterIncrement]; omega) q hq
      rw [hrec]
      simp [counterIncrement, hq]
    · unfold rankLoop
      simp [hlt]

/-- The final `global_counter` of the thread-engine loop advances by exactly
the number of iterations executed. -/
theorem ompMainLoop_final (steps : Nat) (ok : Nat → Bool) :
    ∀ n step gc log, steps - step = n →
      (ompMainLoop steps ok step gc log).2.2 = gc + (steps - step) := by
  intro n
  induction n with
  | zero =>
    intro step gc log h
    have hlt : ¬ step < steps := by omega
    unfold ompMainLoop
    simp [hlt]
    omega
  | succ k ih =>
    intro step gc log h
    have hlt : step < steps := by omega
    have hrec := ih (step + 1) (gc + 1) (writeState log step gc (ok step)) (by omega)
    unfold ompMainLoop
    simp [hlt, hrec]
    omega

/-- Past step 0, one write never truncates: the old contents stay a prefix. -/
theorem writeState_extends (log : List LogEntry) (step gc : Nat) (ok : Bool) (h : step ≠ 0) :
    ∃ u, writeState log step gc ok = log ++ u := by
  unfold writeState
  cases ok with
  | false => exact ⟨[], by simp⟩
  | true =>
    have hstep0 : (step == 0) = false := by simp [h]
    simp [hstep0]

/-- Anything in the state file after one write was already there or is the
entry just written. -/
theorem writeState_mem (log : List LogEntry) (step gc : Nat) (ok : Bool) :
    ∀ e ∈ writeState log step gc ok, e ∈ log ∨ e = ⟨step, gc⟩ := by
  intro e he
  unfold writeState at he
  cases ok with
  | false =>
    simp at he
    exact Or.inl he
  | true =>
    by_cases h0 : step = 0
    · subst h0
      simp at he
      exact Or.inr he
    · have hstep0 : (step == 0) = false := by simp [h0]
      simp [hstep0] at he
      exact he

/-- The `global_counter` values of the iterations executed from loop state
`(step, gc)` are the contiguous range `gc, gc+1, …`, one per iteration. -/
theorem ompMainLoop_pairs (steps : Nat) (ok : Nat → Bool) :
    ∀ n step gc log, steps - step = n →
      (ompMainLoop steps ok step gc log).1.map Prod.snd = List.range' gc (steps - step) := by
  intro n
  induction n with
  | zero =>
    intro step gc log h
    have hlt : ¬ step < steps := by omega
    unfold ompMainLoop
    simp [hlt]
    omega
  | succ k ih =>
    intro step gc log h
    have hlt : step < steps := by omega
    have hrec := ih (step + 1) (gc + 1) (writeState log step gc (ok step)) (by omega)
    unfold ompMainLoop
    simp [hlt, hrec]
    have hm : steps - step = (steps - (step + 1)) + 1 := by omega
    rw [hm, List.range'_succ]

/-- Once past step 0, an iteration never truncates the state file: it only
appends (or leaves the log alone when `fopen` fails). -/
theorem ompMainLoop_retains (steps : Nat) (ok : Nat → Bool) :
    ∀ n step gc log, steps - step = n → 1 ≤ step →
      ∃ t, (ompMainLoop steps ok step gc log).2.1 = log ++ t := by
  intro n
  induction n with
  | zero =>
    intro step gc log h hstep
    have hlt : ¬ step < steps := by omega
    unfold ompMainLoop
    simp [hlt]
  | succ k ih =>
    intro step gc log h hstep
    have hlt : step < steps := by omega
    obtain ⟨t, ht⟩ := ih (step + 1) (gc + 1) (writeState log step gc (ok step)) (by omega) (by omega)
    obtain ⟨u, hu⟩ := writeState_extends log step gc (ok step) (by omega)
    unfold ompMainLoop
    rw [dif_pos hlt]
    rw [hu] at ht
    exact ⟨u ++ t, by rw [hu, ht, List.append_assoc]⟩

/-- Invariant of a fresh run: the loop index and `global_counter` advance in
lockstep, so every diagnostic pair and every log entry written has its two
fields equal. -/
theorem ompMainLoop_sync (steps : Nat) (ok : Nat → Bool) :
    ∀ n step gc log, steps - step = n → step = gc →
      (∀ e ∈ log, e.step = e.counter) →
      (∀ p ∈ (ompMainLoop steps ok step gc log).1, p.1 = p.2) ∧
      (∀ e ∈ (ompMainLoop steps ok step gc log).2.1, e.step = e.counter) := by
  intro n
  induction n with
  | zero =>
    intro step gc log h heq hlog
    have hlt : ¬ step < steps := by omega
    unfold ompMainLoop
    simp [hlt]
    exact hlog
  | succ k ih =>
    intro step gc log h heq hlog
    have hlt : step < steps := by omega
    have hlog' : ∀ e ∈ writeState log step gc (ok step), e.step = e.counter := by
      intro e he
      rcases writeState_mem log step gc (ok step) e he with h1 | h1
      · exact hlog e h1
      · subst h1
        exact heq
    obtain ⟨hp, hl⟩ := ih (step + 1) (gc + 1) (writeState log step gc (ok step)) (by omega)
      (by omega) hlog'
    unfold ompMainLoop
    rw [dif_pos hlt]
    constructor
    · intro p hp'
      simp at hp'
      rcases hp' with hp' | hp'
      · subst hp'
        exact heq
      · exact hp p hp'
    · exact hl

/-- The counter trajectory of a run resumed at `c ≤ max_steps` is the
contiguous range `c, c+1, …, max_steps`. -/
theorem counterTraj_eq (size c m : Nat) (h : c ≤ m) :
    counterTraj size c m = List.range' c (m - c + 1) := by
  unfold counterTraj
  obtain ⟨h1, h2⟩ := mpiMainLoop_spec size (m - c) c m rfl
  rw [h1, h2, List.range'_1_concat]
  have hmax : max c m = c + (m - c) := by omega
  rw [hmax]

/-- The `global_counter` trajectory of a fresh thread-engine run is the
contiguous range `0, 1, …, steps`. -/
theorem ompCounterTraj_eq (steps : Nat) (ok : Nat → Bool) :
    ompCounterTraj steps ok = List.range' 0 (steps + 1) := by
  unfold ompCounterTraj
  have h1 := ompMainLoop_pairs steps ok (steps - 0) 0 0 [] rfl
  have h2 := ompMainLoop_final steps ok (steps - 0) 0 0 [] rfl
  simp only [Nat.sub_zero, Nat.zero_add] at h1 h2
  rw [h1, h2, List.range'_1_concat, Nat.zero_add]

/-- For a negative `ms`, the uint64 cast in `busy_work_ms` produces a
target beyond `2 ^ 63` microseconds. -/
theorem busy_target_neg_large (ms : Int) (h1 : -(2 ^ 31) ≤ ms) (h2 : ms < 0) :
    2 ^ 63 < busy_work_target ms := by
  unfold busy_work_target
  have hmod : ms % (2 ^ 64 : Int) = 2 ^ 64 + ms := by omega
  rw [hmod]
  have htn : (2 ^ 64 + ms : Int).toNat = 2 ^ 64 - (-ms).toNat := by omega
  rw [htn]
  have hk1 : 1 ≤ (-ms).toNat := by omega
  have hk2 : (-ms).toNat ≤ 2 ^ 31 := by omega
  have key : (2 ^ 64 - (-ms).toNat) * 1000 =
      (2 ^ 64 - 1000 * (-ms).toNat) + 999 * 2 ^ 64 := by
    omega
  rw [key, Nat.add_mul_mod_self_right, Nat.mod_eq_of_lt (by omega)]
  omega

/-! ## The claims -/

/-- C1: for every worker count N ≥ 1 and every step s, the gathered
sequence at step s has one entry per rank, in rank order, entry r being
r * (s + 1); with N = 4, max_steps = 3 the three iterations gather
[0,1,2,3], [0,2,4,6], [0,3,6,9] at steps 0, 1, 2, and the finish line
reports steps = 3. -/
theorem gathered_sequence_spec :
    (∀ N s : Nat, 1 ≤ N →
      (gather_buf N s).length = N ∧
      ∀ r : Nat, r < N → (gather_buf N s).get? r = some (r * (s + 1))) ∧
    (mpiMainLoop 4 0 3).1.map StepLog.step = [0, 1, 2] ∧
    (mpiMainLoop 4 0 3).1.map StepLog.gathered = [[0,1,2,3], [0,2,4,6], [0,3,6,9]] ∧
    mpi_finish_line 4 0 3 = 3 := by
  refine ⟨fun N s _hN => ⟨by simp [gather_buf], fun r hr => gather_buf_get N s r hr⟩, ?_, ?_, ?_⟩
  · simp [mpiMainLoop]
  · simp [mpiMainLoop, gather_buf, my_value]
    decide
  · simp [mpi_finish_line, mpiMainLoop]

/-- Witness for C1 at N = 4, s = 1, r = 2. -/
theorem gathered_sequence_spec_witness :
    (gather_buf 4 1).length = 4 ∧ (gather_buf 4 1).get? 2 = some 4 := by
  refine ⟨(gathered_sequence_spec.1 4 1 (by decide)).1, ?_⟩
  have h := (gathered_sequence_spec.1 4 1 (by decide)).2 2 (by decide)
  simpa using h

/-- C2: in both engines the step counter rises by exactly 1 per completed
step, never exceeds max_steps, equals max_steps at normal completion, and
is the value the final summary line reports: for engine 4.1 over the
coordinator's counter trajectory, and for engine 4.2 over the
`global_counter` trajectory of a fresh run. -/
theorem step_counter_monotone_spec :
    (∀ size c m : Nat, c ≤ m →
      (∀ i : Nat, i + 1 < (counterTraj size c m).length →
        (counterTraj size c m)[i + 1]! = (counterTraj size c m)[i]! + 1) ∧
      (∀ v ∈ counterTraj size c m, v ≤ m) ∧
      (mpiMainLoop size c m).2 = m ∧
      mpi_finish_line size c m = m) ∧
    (∀ steps : Nat, ∀ ok : Nat → Bool,
      (∀ i : Nat, i + 1 < (ompCounterTraj steps ok).length →
        (ompCounterTraj steps ok)[i + 1]! = (ompCounterTraj steps ok)[i]! + 1) ∧
      (∀ v ∈ ompCounterTraj steps ok, v ≤ steps) ∧
      (ompMainLoop steps ok 0 0 []).2.2 = steps) := by
  constructor
  · intro size c m hc
    have he := counterTraj_eq size c m hc
    have hfin : (mpiMainLoop size c m).2 = m := by
      obtain ⟨-, h2⟩ := mpiMainLoop_spec size (m - c) c m rfl
      omega
    refine ⟨?_, ?_, hfin, hfin⟩
    · intro i h1
      rw [he] at h1 ⊢
      rw [List.length_range'] at h1
      rw [getElem!_pos _ _ (by simp; omega), getElem!_pos _ _ (by simp; omega)]
      simp [List.getElem_range']
      omega
    · intro v hv
      rw [he] at hv
      simp at hv
      omega
  · intro steps ok
    have he := ompCounterTraj_eq steps ok
    have hfin : (ompMainLoop steps ok 0 0 []).2.2 = steps := by
      have h := ompMainLoop_final steps ok (steps - 0) 0 0 [] rfl
      simpa using h
    refine ⟨?_, ?_, hfin⟩
    · intro i h1
      rw [he] at h1 ⊢
      rw [List.length_range'] at h1
      rw [getElem!_pos _ _ (by simp; omega), getElem!_pos _ _ (by simp; omega)]
      simp [List.getElem_range']
    · intro v hv
      rw [he] at hv
      simp at hv
      omega

/-- Witness for C2 at size = 2, c = 0, max_steps = 2 for engine 4.1, and a
2-step fresh run of engine 4.2, with the +1 chain checked at i = 0. -/
theorem step_counter_monotone_spec_witness :
    ((mpiMainLoop 2 0 2).2 = 2 ∧ mpi_finish_line 2 0 2 = 2) ∧
    (ompCounterTraj 2 (fun _ => true))[1]! = (ompCounterTraj 2 (fun _ => true))[0]! + 1 ∧
    (ompMainLoop 2 (fun _ => true) 0 0 []).2.2 = 2 := by
  have h1 := step_counter_monotone_spec.1 2 0 2 (by decide)
  have h2 := step_counter_monotone_spec.2 2 (fun _ => true)
  refine ⟨⟨h1.2.2.1, h1.2.2.2⟩, h2.1 0 ?_, h2.2.2⟩
  rw [ompCounterTraj_eq]
  simp

/-- C3: a run resumed with counter value c emits exactly the steps
c, c+1, …, max_steps-1 in order: the list of emitted steps is the range
from c, the first emitted step is c itself, and step c-1 is never
re-emitted. -/
theorem resume_continues_spec :
    ∀ size c m : Nat,
      ((mpiMainLoop size c m).1.map StepLog.step = List.range' c (m - c)) ∧
      (c < m → ((mpiMainLoop size c m).1.map StepLog.step).head? = some c) ∧
      (1 ≤ c → c - 1 ∉ (mpiMainLoop size c m).1.map StepLog.step) := by
  intro size c m
  obtain ⟨h1, -⟩ := mpiMainLoop_spec size (m - c) c m rfl
  refine ⟨h1, fun hcm => ?_, fun hc => ?_⟩
  · rw [h1]
    have hm : m - c = (m - (c + 1)) + 1 := by omega
    rw [hm, List.range'_succ]
    rfl
  · rw [h1]
    simp
    omega

/-- Witness for C3 at size = 2, c = 1, max_steps = 3. -/
theorem resume_continues_spec_witness :
    ((mpiMainLoop 2 1 3).1.map StepLog.step).head? = some 1 ∧
    1 - 1 ∉ (mpiMainLoop 2 1 3).1.map StepLog.step :=
  ⟨(resume_continues_spec 2 1 3).2.1 (by decide),
   (resume_continues_spec 2 1 3).2.2 (by decide)⟩

/-- C4: the state file is opened in truncating "w" mode iff the step index
is 0, and every later write appends, so a run resumed at step c ≥ 1 keeps
every entry already in the file as a prefix of the final contents. -/
theorem log_mode_retention_spec :
    (∀ step : Nat, fopen_mode step = "w" ↔ step = 0) ∧
    (∀ steps : Nat, ∀ ok : Nat → Bool, ∀ c gc : Nat, ∀ log : List LogEntry,
      1 ≤ c → ∃ t, (ompMainLoop steps ok c gc log).2.1 = log ++ t) := by
  constructor
  · intro step
    by_cases h0 : step = 0
    · subst h0
      simp [fopen_mode]
    · have hb : (step == 0) = false := by simp [h0]
      simp [fopen_mode, hb, h0]
  · intro steps ok c gc log hc
    exact ompMainLoop_retains steps ok (steps - c) c gc log rfl hc

/-- Witness for C4: resume at step 1 with one prior entry in the file. -/
theorem log_mode_retention_spec_witness :
    ∃ t, (ompMainLoop 3 (fun _ => true) 1 1 [⟨0, 0⟩]).2.1 = [(⟨0, 0⟩ : LogEntry)] ++ t :=
  log_mode_retention_spec.2 3 (fun _ => true) 1 1 [⟨0, 0⟩] (by decide)

/-- C5: the StepCounter — the counter held by the coordinator, rank 0 — is
mutated only by the coordinator: a worker of any other rank runs its whole
loop without changing rank 0's counter; each rank's increment touches only
its own copy; and the increment is the last phase of an iteration, after
the pacing delay. -/
theorem counter_owner_frame_spec :
    (∀ st : Nat → Nat, ∀ r m : Nat, r ≠ 0 → rankLoop r m st 0 = st 0) ∧
    (∀ st : Nat → Nat, ∀ r : Nat, counterIncrement st r r = st r + 1) ∧
    (∀ st : Nat → Nat, ∀ r q : Nat, q ≠ r → counterIncrement st r q = st q) ∧
    stepPhases.getLast? = some MpiPhase.advance ∧
    stepPhases.indexOf MpiPhase.pace < stepPhases.indexOf MpiPhase.advance := by
  refine ⟨?_, ?_, ?_, rfl, by decide⟩
  · intro st r m hr
    exact rankLoop_frame r m (m - st r) st rfl 0 (Ne.symm hr)
  · intro st r
    simp [counterIncrement]
  · intro st r q hq
    simp [counterIncrement, hq]

/-- Witness for C5: rank 1's whole loop leaves rank 0's counter at 0. -/
theorem counter_owner_frame_spec_witness :
    rankLoop 1 2 (fun _ => 0) 0 = 0 ∧ counterIncrement (fun _ => 0) 1 0 = 0 :=
  ⟨counter_owner_frame_spec.1 (fun _ => 0) 1 2 (by decide),
   counter_owner_frame_spec.2.2.1 (fun _ => 0) 1 0 (by decide)⟩

/-- C6 counterexample: engine 4.2 does not clamp an invalid numeric flag.
`-s -5` is stored verbatim: option parsing succeeds with steps = -5, a
negative value, so no clamp to a safe minimum took place. -/
theorem negative_flag_unclamped_cex :
    ompParse [OptFlag.s (-5)] = OptResult.ok (-5) 25 none ∧ ((-5 : Int) < 0) := by
  constructor
  · rfl
  · decide

/-- C6 as amended: engine 4.1 clamps its env values to safe minimums
(MAX_STEPS to ≥ 1, SLEEP_MS to ≥ 0); engine 4.2 stores `-s` and `-w`
values verbatim with no clamp; and in engine 4.2 an unrecognized flag is
fatal with exit code 1 while `-h` exits with code 0. -/
theorem clamping_amended_spec :
    (∀ v : Int, 1 ≤ parseMaxSteps (some v)) ∧
    (∀ v : Int, 0 ≤ parseSleepMs (some v)) ∧
    (∀ v : Int, ompParse [OptFlag.s v] = OptResult.ok v 25 none) ∧
    (∀ v : Int, ompParse [OptFlag.w v] = OptResult.ok 60 v none) ∧
    (∀ opts : List OptFlag, ∀ steps work_ms : Int, ∀ sf : Option String,
      getoptLoop (OptFlag.bad :: opts) steps work_ms sf = OptResult.exit 1) ∧
    (∀ opts : List OptFlag, ∀ steps work_ms : Int, ∀ sf : Option String,
      getoptLoop (OptFlag.h :: opts) steps work_ms sf = OptResult.exit 0) := by
  refine ⟨fun v => ?_, fun v => ?_, fun v => rfl, fun v => rfl,
          fun opts steps work_ms sf => rfl, fun opts steps work_ms sf => rfl⟩
  · unfold parseMaxSteps
    split <;> omega
  · unfold parseSleepMs
    split <;> omega

/-- C7: with max_steps configured as 0, engine 4.1 clamps it to 1 and runs
exactly one step, while engine 4.2 applies no clamp and runs zero steps. -/
theorem max_steps_zero_boundary_spec :
    parseMaxSteps (some 0) = 1 ∧
    (∀ size : Nat, (mpiMainLoop size 0 (parseMaxSteps (some 0)).toNat).1.length = 1) ∧
    ompParse [OptFlag.s 0] = OptResult.ok 0 25 none ∧
    (∀ ok : Nat → Bool, (ompMainLoop 0 ok 0 0 []).1 = []) := by
  refine ⟨rfl, fun size => ?_, rfl, fun ok => ?_⟩
  · have h : (parseMaxSteps (some 0)).toNat = 1 := rfl
    rw [h]
    simp [mpiMainLoop]
  · unfold ompMainLoop
    simp

/-- C8: the unconfigured defaults — engine 4.1 uses max_steps 120 with a
≥ 1 clamp when set and pacing 1000 ms with a ≥ 0 clamp when set; engine
4.2 uses steps 60, work 25 ms, no state file, and a fixed 2000 ms pacing
sleep that no option reaches. -/
theorem default_config_spec :
    parseMaxSteps none = 120 ∧
    (∀ v : Int, 1 ≤ parseMaxSteps (some v)) ∧
    parseSleepMs none = 1000 ∧
    (∀ v : Int, 0 ≤ parseSleepMs (some v)) ∧
    ompParse [] = OptResult.ok 60 25 none ∧
    omp_pacing_us = 2000 * 1000 := by
  refine ⟨rfl, fun v => ?_, rfl, fun v => ?_, rfl, rfl⟩
  · unfold parseMaxSteps
    split <;> omega
  · unfold parseSleepMs
    split <;> omega

/-- C9: in a fresh (unresumed) run of engine 4.2 the loop index and
global_counter advance in lockstep from 0, so every per-iteration pair and
every log entry written has its STEP field equal to its global_counter
field. -/
theorem step_counter_sync_spec :
    ∀ steps : Nat, ∀ ok : Nat → Bool,
      (∀ p ∈ (ompMainLoop steps ok 0 0 []).1, p.1 = p.2) ∧
      (∀ e ∈ (ompMainLoop steps ok 0 0 []).2.1, e.step = e.counter) := by
  intro steps ok
  exact ompMainLoop_sync steps ok (steps - 0) 0 0 [] rfl rfl (by simp)

/-- Witness for C9: the pair of iteration 1 of a 2-step run. -/
theorem step_counter_sync_spec_witness :
    (1, 1) ∈ (ompMainLoop 2 (fun _ => true) 0 0 []).1 ∧ ((1, 1) : Nat × Nat).1 = ((1, 1) : Nat × Nat).2 := by
  have hmem : (1, 1) ∈ (ompMainLoop 2 (fun _ => true) 0 0 []).1 := by
    simp [ompMainLoop, writeState]
  exact ⟨hmem, (step_counter_sync_spec 2 (fun _ => true)).1 (1, 1) hmem⟩

/-- C10: `busy_work_ms` terminates for every ms ≥ 0 provided the monotonic
clock's elapsed reading eventually exceeds every bound; for a negative ms
the uint64 cast wraps the target beyond 2^63 µs, so under any clock whose
readings stay below 2^63 µs (about 292,000 years) the loop never exits —
termination holds only under the precondition ms ≥ 0. -/
theorem busy_work_termination_spec :
    (∀ elapsed : Nat → Nat, ∀ ms : Int, 0 ≤ ms →
      (∀ B : Nat, ∃ n, B ≤ elapsed n) → BusyWorkTerminates elapsed ms) ∧
    (∀ ms : Int, -(2 ^ 31) ≤ ms → ms < 0 → 2 ^ 63 < busy_work_target ms) ∧
    (∀ elapsed : Nat → Nat, ∀ ms : Int, -(2 ^ 31) ≤ ms → ms < 0 →
      (∀ n, elapsed n < 2 ^ 63) → ¬ BusyWorkTerminates elapsed ms) := by
  refine ⟨?_, fun ms h1 h2 => busy_target_neg_large ms h1 h2, ?_⟩
  · intro elapsed ms _hms hunb
    exact hunb (busy_work_target ms)
  · intro elapsed ms h1 h2 hbound hterm
    obtain ⟨n, hn⟩ := hterm
    have hlarge := busy_target_neg_large ms h1 h2
    have := hbound n
    omega

/-- Witness for C10: a strictly advancing clock reaches the ms = 25
target; a clock stuck at 0 never reaches the wrapped ms = -1 target. -/
theorem busy_work_termination_spec_witness :
    BusyWorkTerminates (fun n => n) 25 ∧
    2 ^ 63 < busy_work_target (-1) ∧
    ¬ BusyWorkTerminates (fun _ => 0) (-1) :=
  ⟨busy_work_termination_spec.1 (fun n => n) 25 (by decide)
      (fun B => ⟨B, Nat.le_refl B⟩),
   busy_work_termination_spec.2.1 (-1) (by decide) (by decide),
   busy_work_termination_spec.2.2 (fun _ => 0) (-1) (by decide) (by decide)
      (fun n => by show (0 : Nat) < 2 ^ 63; decide)⟩
